import Mathlib

/-!
Verification development for the rarexsec sample-partitioning engine.

The definitions below are shallow embeddings of the C++ sources:
`src/rarexsec/Hub.cxx`, `src/rarexsec/Hub.h`, `src/rarexsec/Processor.cxx`
and `src/rarexsec/proc/Selection.h`.

Machine integers (`std::uint64_t`, `std::uint32_t`, C `int`) are embedded as
`Nat`/`Int` with explicit `% 2 ^ w` reductions where the C++ code converts or
can wrap.  Floating-point weights and scores are embedded as exact rationals
(`ℚ`); the `std::isfinite` guards of the source, which can only fail on
non-finite doubles, are represented by the companion sign tests that appear
next to them (a rational value is always finite).  Fallible lookups return
`Option`.  Everything is computable.
-/

/-! ### Constants (anonymous namespace of `Hub.cxx`) -/

def kTrainingNSignal : Nat := 50000

def kTrainingNBackground : Nat := 50000

def kTrainingSeed : Nat := 12345

/-! ### EventKey codec (`make_event_key`, Hub.cxx lines 40-46)

The C++ takes three `int` arguments, converts each through `std::uint32_t`
(reduction mod `2 ^ 32`) and widens to `std::uint64_t`; the shifts are
performed in 64-bit arithmetic, hence the `% 2 ^ 64` on the shifted values.
The claims quantify over the non-negative bounded domain, so the arguments
are embedded as `Nat`. -/

def make_event_key (run sub evt : Nat) : Nat :=
  let r := run % 2 ^ 32
  let s := sub % 2 ^ 32
  let e := evt % 2 ^ 32
  (((r <<< 42) % 2 ^ 64) ^^^ ((s <<< 21) % 2 ^ 64)) ^^^ e

/-! ### Deterministic PRNG (`stable_uniform`, Hub.cxx lines 48-53)

`std::hash<std::uint64_t>` is a standard-library collaborator, not repository
code; it is embedded as an explicit function argument `hash` whose output is
reduced to the 64-bit range.  The arithmetic `((double)h + 0.5) * (1.0 /
(double)UINT64_MAX)` is embedded exactly over `ℚ`: the divisor is
`2 ^ 64 - 1`, the literal value of `std::numeric_limits<std::uint64_t>::max()`. -/

def stable_uniform (hash : Nat → Nat) (key : Nat) : ℚ :=
  let h : Nat := hash ((key ^^^ kTrainingSeed) % 2 ^ 64) % 2 ^ 64
  ((h : ℚ) + 1 / 2) * (1 / (2 ^ 64 - 1))

/-! ### Candidates and training selections (Hub.cxx lines 29-38) -/

structure TrainCandidate where
  event_key : Nat
  key : ℚ
  weight : ℚ
deriving DecidableEq

structure TrainSelection where
  ids : Finset Nat
  sum_weight : ℚ
deriving DecidableEq

/-! ### `select_top` (Hub.cxx lines 55-103)

`std::nth_element` partially sorts the candidate vector in place around the
element at position `size - n`; after the call that element holds the value
that a full ascending sort would place there, while the ordering of the other
elements is implementation-defined.  The embedding therefore computes the
cutoff from a full ascending sort (`cutoffOf`), and runs the two selection
passes over an explicit list `l` standing for the reordered vector; theorems
constrain `l` to be a permutation of the candidates.  `select_top` itself
instantiates `l` with the unpermuted list. -/

def cutoffOf (cands : List TrainCandidate) (n : Nat) : ℚ :=
  (List.insertionSort (· ≤ ·) (cands.map TrainCandidate.key)).getD (cands.length - n) 0

/-- First pass of `select_top` (lines 79-87): insert every candidate whose
sampling key is strictly above the cutoff, accumulating weight and count for
newly inserted event keys. -/
def select_pass_gt : List TrainCandidate → ℚ → Finset Nat × ℚ × Nat → Finset Nat × ℚ × Nat
  | [], _, st => st
  | c :: rest, cutoff, (ids, sw, cnt) =>
    if cutoff < c.key then
      if c.event_key ∈ ids then select_pass_gt rest cutoff (ids, sw, cnt)
      else select_pass_gt rest cutoff (insert c.event_key ids, sw + c.weight, cnt + 1)
    else select_pass_gt rest cutoff (ids, sw, cnt)

/-- Second pass of `select_top` (lines 89-100): insert candidates whose
sampling key equals the cutoff, stopping as soon as the count reaches the
quota `n`. -/
def select_pass_eq : List TrainCandidate → ℚ → Nat → Finset Nat × ℚ × Nat → Finset Nat × ℚ × Nat
  | [], _, _, st => st
  | c :: rest, cutoff, n, (ids, sw, cnt) =>
    if c.key = cutoff then
      if c.event_key ∈ ids then select_pass_eq rest cutoff n (ids, sw, cnt)
      else
        if cnt + 1 = n then (insert c.event_key ids, sw + c.weight, cnt + 1)
        else select_pass_eq rest cutoff n (insert c.event_key ids, sw + c.weight, cnt + 1)
    else select_pass_eq rest cutoff n (ids, sw, cnt)

/-- The two passes run in sequence from the empty state: the second pass runs
only when the first pass inserted fewer than `n` keys (line 89). -/
def select_top_passes (l : List TrainCandidate) (cutoff : ℚ) (n : Nat) :
    Finset Nat × ℚ × Nat :=
  if (select_pass_gt l cutoff (∅, 0, 0)).2.2 < n then
    select_pass_eq l cutoff n (select_pass_gt l cutoff (∅, 0, 0))
  else select_pass_gt l cutoff (∅, 0, 0)

/-- `select_top` over the vector contents `l` left by `std::nth_element`
(`l` is some permutation of `cands`; the cutoff and the early-return branches
depend only on `cands`). -/
def select_top_perm (l : List TrainCandidate) (cands : List TrainCandidate) (n : Nat) :
    TrainSelection :=
  if cands = [] ∨ n = 0 then ⟨∅, 0⟩
  else if cands.length ≤ n then
    ⟨(cands.map TrainCandidate.event_key).toFinset, (cands.map TrainCandidate.weight).sum⟩
  else
    ⟨(select_top_passes l (cutoffOf cands n) n).1,
      (select_top_passes l (cutoffOf cands n) n).2.1⟩

def select_top (cands : List TrainCandidate) (n : Nat) : TrainSelection :=
  select_top_perm cands cands n

/-- Specification-shaped description of the training subset chosen by
`select_top` in the quota-exceeded case: every candidate whose sampling key is
strictly above the cutoff (the `n`-th largest key), followed by candidates
tied exactly at the cutoff in first-seen order over the scanned pool, until
the quota is filled. -/
def top_selection (l cands : List TrainCandidate) (n : Nat) : List TrainCandidate :=
  (l.filter (fun c => cutoffOf cands n < c.key)) ++
    ((l.filter (fun c => c.key = cutoffOf cands n)).take
      (n - (l.filter (fun c => cutoffOf cands n < c.key)).length))

/-! ### Corpus scan and partition builder (`Hub::build_training_sets`,
Hub.cxx lines 331-403)

Each scanned row carries `(run, sub, evt)` and its nominal weight; the
`Foreach` body drops rows whose nominal weight is not strictly positive (the
`isfinite` guard cannot fail over `ℚ`) and rows whose uniform variate falls
outside `(0,1)`.  The double-valued variate test `u > 0 && u < 1` and the
double-valued sampling key `std::log(u) / w` are transcendental in the reals;
they are embedded as explicit function parameters `uok` (the result of the
variate test for an event key) and `skey` (the sampling key as a function of
event key and weight).  All theorems hold for every instantiation of these
parameters, in particular for the one realised by the binary. -/

structure ScanRow where
  run : Nat
  sub : Nat
  evt : Nat
  w_nominal : ℚ
deriving DecidableEq

def ScanRow.event_key (r : ScanRow) : Nat := make_event_key r.run r.sub r.evt

/-- The candidate list accumulated for one class by the `Foreach` scan. -/
def gather_candidates (uok : Nat → Bool) (skey : Nat → ℚ → ℚ) (rows : List ScanRow) :
    List TrainCandidate :=
  (rows.filter (fun r => decide (0 < r.w_nominal) && uok r.event_key)).map
    (fun r => ⟨r.event_key, skey r.event_key r.w_nominal, r.w_nominal⟩)

/-- Running weight total accumulated for one class by the same scan
(`total_sig_weight` / `total_bkg_weight`). -/
def gather_total (uok : Nat → Bool) (rows : List ScanRow) : ℚ :=
  ((rows.filter (fun r => decide (0 < r.w_nominal) && uok r.event_key)).map
    ScanRow.w_nominal).sum

/-- Per-class rescale factor (Hub.cxx lines 391-402): analysis weight is the
total minus the selected training weight; divide if it is strictly positive,
else fall back to `1.0`. -/
def class_rescale (total training_weight : ℚ) : ℚ :=
  if 0 < total - training_weight then total / (total - training_weight) else 1

/-- The partition state stored on the `Hub` after `build_training_sets`. -/
structure PartitionState where
  training_signal_ids : Finset Nat
  training_background_ids : Finset Nat
  signal_analysis_scale : ℚ
  background_analysis_scale : ℚ
deriving DecidableEq

/-- `Hub::build_training_sets`, phrased over the two per-class scan results. -/
def build_training_sets (uok : Nat → Bool) (skey : Nat → ℚ → ℚ)
    (sig_rows bkg_rows : List ScanRow) : PartitionState :=
  let sig_sel := select_top (gather_candidates uok skey sig_rows) kTrainingNSignal
  let bkg_sel := select_top (gather_candidates uok skey bkg_rows) kTrainingNBackground
  { training_signal_ids := sig_sel.ids
    training_background_ids := bkg_sel.ids
    signal_analysis_scale := class_rescale (gather_total uok sig_rows) sig_sel.sum_weight
    background_analysis_scale := class_rescale (gather_total uok bkg_rows) bkg_sel.sum_weight }

/-! ### Annotation pass (`Hub::sample`, Hub.cxx lines 144-194) -/

/-- The `is_training` column attached to a Simulation entry (lines 161-169). -/
def hub_is_training (sig_ids bkg_ids : Finset Nat) (run sub evt : Nat) (is_signal : Bool) :
    Bool :=
  let key := make_event_key run sub evt
  if is_signal then key ∈ sig_ids else key ∈ bkg_ids

/-- The `w_analysis` column attached to a Simulation entry (lines 171-184).
The two `std::isfinite` tests of the lambda accompany sign tests and cannot
fail over `ℚ`. -/
def hub_w_analysis (sig_scale bkg_scale : ℚ) (w_nominal : ℚ) (is_signal is_training : Bool) :
    ℚ :=
  if w_nominal ≤ 0 then 0
  else if is_training then 0
  else
    let scale := if is_signal then sig_scale else bkg_scale
    let w := w_nominal * scale
    if w ≤ 0 then 0 else w

/-- The `is_training` column attached to a non-Simulation entry (line 186). -/
def hub_is_training_nonmc : Bool := false

/-- The `w_analysis` column attached to a non-Simulation entry (lines 187-190). -/
def hub_w_analysis_nonmc (w_nominal : ℚ) : ℚ := w_nominal

/-- The signal rescale factor as captured by the `w_analysis` lambda.
`Hub::Hub` builds every frame via `sample()` (Hub.cxx lines 244 and 261)
before it calls `build_training_sets()` (line 271), and the lambda captures
`signal_analysis_scale_` and `background_analysis_scale_` by value (lines
158-159) while they still hold their in-class defaults `1.0` (Hub.h lines
34-35); only the id sets are captured by pointer (lines 156-157). -/
def hub_captured_signal_scale : ℚ := 1

/-- The background rescale factor as captured by the `w_analysis` lambda;
see `hub_captured_signal_scale`. -/
def hub_captured_background_scale : ℚ := 1

/-- The `w_analysis` column as actually attached to a Simulation entry:
`hub_w_analysis` applied at the captured (still default) scale values. -/
def hub_attached_w_analysis (w_nominal : ℚ) (is_signal is_training : Bool) : ℚ :=
  hub_w_analysis hub_captured_signal_scale hub_captured_background_scale
    w_nominal is_signal is_training

/-- A concrete one-class corpus exceeding the signal quota by one row:
`kTrainingNSignal + 1` rows of nominal weight `1` with pairwise distinct
`(run, sub, evt)` triples (`run = 0, …, kTrainingNSignal`). -/
def unit_corpus : List ScanRow :=
  (List.range (kTrainingNSignal + 1)).map (fun i => ⟨i, 0, 0, 1⟩)

/-! ### Interaction-channel classification
(`analysis_channels` lambda, Processor.cxx lines 175-207)

The `Channel` enumeration is declared in `rarexsec/Processor.h`, which is not
among the provided sources; its constructors are taken from their uses in
`Processor.cxx`.  The classifier's integer inputs are C `int`s used only in
comparisons, embedded as `Int`. -/

inductive Channel where
  | OutFV
  | External
  | NC
  | CCS1
  | CCSgt1
  | ECCC
  | MuCC0pi_ge1p
  | MuCC1pi
  | MuCCPi0OrGamma
  | MuCCNpi
  | MuCCOther
  | Unknown
  | DataInclusive
deriving DecidableEq

/-- The nested-conditional classifier exactly as written in the source. -/
def analysis_channels (fv : Bool) (nu ccnc s np npim npip npi0 ngamma : Int) : Channel :=
  let npi := npim + npip
  if ¬fv then
    if nu = 0 then Channel.OutFV
    else Channel.External
  else if ccnc = 1 then Channel.NC
  else if ccnc = 0 ∧ 0 < s then
    if s = 1 then Channel.CCS1 else Channel.CCSgt1
  else if nu.natAbs = 12 ∧ ccnc = 0 then Channel.ECCC
  else if nu.natAbs = 14 ∧ ccnc = 0 then
    if npi = 0 ∧ 0 < np then Channel.MuCC0pi_ge1p
    else if npi = 1 ∧ npi0 = 0 then Channel.MuCC1pi
    else if 0 < npi0 ∨ 2 ≤ ngamma then Channel.MuCCPi0OrGamma
    else if 1 < npi then Channel.MuCCNpi
    else Channel.MuCCOther
  else Channel.Unknown

/-- Specification-shaped classifier: an explicit ordered list of
(predicate, label) rules, evaluated first-match-wins, with the explicit
`Unknown` fallback (spec §4.3 and §9). -/
def channel_rules (fv : Bool) (nu ccnc s np npim npip npi0 ngamma : Int) :
    List (Bool × Channel) :=
  let npi := npim + npip
  [ (!fv && decide (nu = 0), Channel.OutFV),
    (!fv, Channel.External),
    (decide (ccnc = 1), Channel.NC),
    (decide (ccnc = 0) && decide (0 < s) && decide (s = 1), Channel.CCS1),
    (decide (ccnc = 0) && decide (0 < s), Channel.CCSgt1),
    (decide (nu.natAbs = 12) && decide (ccnc = 0), Channel.ECCC),
    (decide (nu.natAbs = 14) && decide (ccnc = 0) && decide (npi = 0) && decide (0 < np),
      Channel.MuCC0pi_ge1p),
    (decide (nu.natAbs = 14) && decide (ccnc = 0) && decide (npi = 1) && decide (npi0 = 0),
      Channel.MuCC1pi),
    (decide (nu.natAbs = 14) && decide (ccnc = 0) && (decide (0 < npi0) || decide (2 ≤ ngamma)),
      Channel.MuCCPi0OrGamma),
    (decide (nu.natAbs = 14) && decide (ccnc = 0) && decide (1 < npi), Channel.MuCCNpi),
    (decide (nu.natAbs = 14) && decide (ccnc = 0), Channel.MuCCOther) ]

/-- First-match-wins evaluation of an ordered rule list, defaulting to the
explicit `Unknown` label. -/
def classify_first_match (rules : List (Bool × Channel)) : Channel :=
  match rules.find? (fun r => r.1) with
  | some r => r.2
  | none => Channel.Unknown

/-! ### Catalog accessors (`Hub::simulation_entries` / `Hub::data_entries`,
Hub.cxx lines 292-329)

`Source` is declared in `rarexsec/proc/DataModel.h` (not among the provided
sources); its three constructors `Data`, `Ext`, `MC` are taken from their
uses (the spec calls the corresponding dataset kinds Data, BackgroundEstimate
and Simulation).  The two `std::unordered_map` levels of `db_` are embedded
as association lists with `find?` lookup, and map keys as `Nat` (the string
contents play no role in the claims). -/

inductive Source where
  | Data
  | Ext
  | MC
deriving DecidableEq

structure EntryM where
  beamline : Nat
  period : Nat
  source : Source
deriving DecidableEq

def assoc_find {α : Type} (m : List (Nat × α)) (k : Nat) : Option α :=
  (m.find? (fun p => p.1 = k)).map (fun p => p.2)

def HubDB : Type := List (Nat × List (Nat × List EntryM))

def simulation_entries (db : HubDB) (beamline : Nat) (periods : List Nat) : List EntryM :=
  match assoc_find db beamline with
  | none => []
  | some pdb =>
    periods.flatMap (fun per =>
      match assoc_find pdb per with
      | none => []
      | some entries => entries.filter (fun rec => rec.source ≠ Source.Data))

def data_entries (db : HubDB) (beamline : Nat) (periods : List Nat) : List EntryM :=
  match assoc_find db beamline with
  | none => []
  | some pdb =>
    periods.flatMap (fun per =>
      match assoc_find pdb per with
      | none => []
      | some entries => entries.filter (fun rec => rec.source = Source.Data))

/-! ### Selection stage library (`rarexsec::selection`, Selection.h)

A row carries the raw and derived columns read by the five atomic presets.
Scores and fractions are floats in the source, embedded as `ℚ` (the float
literal `0.06f` is embedded as the rational `6 / 100`; no claim depends on
the numeric value of a threshold).  The `Muon` filter loops over the
parallel PFP vectors indexed by the size of `track_shower_scores`; the C++
indexing is unchecked, embedded with `getD` defaults. -/

def trigger_min_beam_pe : ℚ := 0

def trigger_max_veto_pe : ℚ := 20

def slice_required_count : Int := 1

def slice_min_topology_score : ℚ := 6 / 100

def topology_min_contained_fraction : ℚ := 0

def topology_min_cluster_fraction : ℚ := 1 / 2

def muon_min_track_score : ℚ := 1 / 2

def muon_min_track_length : ℚ := 10

def muon_max_track_distance : ℚ := 4

def muon_required_generation : Nat := 2

structure Row where
  optical_filter_pe_beam : ℚ
  optical_filter_pe_veto : ℚ
  software_trigger : Int
  num_slices : Int
  topological_score : ℚ
  in_reco_fiducial : Bool
  contained_fraction : ℚ
  slice_cluster_fraction : ℚ
  track_shower_scores : List ℚ
  track_length : List ℚ
  track_distance_to_vertex : List ℚ
  pfp_generations : List Nat
deriving DecidableEq

inductive Preset where
  | Empty
  | Trigger
  | Slice
  | Fiducial
  | Topology
  | Muon
  | InclusiveMuCC
deriving DecidableEq

def trigger_pred (src : Source) (r : Row) : Bool :=
  let requires_dataset_gate := src = Source.MC
  if requires_dataset_gate then
    decide (trigger_min_beam_pe < r.optical_filter_pe_beam) &&
    decide (r.optical_filter_pe_veto < trigger_max_veto_pe) &&
    decide (0 < r.software_trigger)
  else true

def slice_pred (r : Row) : Bool :=
  decide (r.num_slices = slice_required_count) &&
  decide (slice_min_topology_score < r.topological_score)

def fiducial_pred (r : Row) : Bool := r.in_reco_fiducial

def topology_pred (r : Row) : Bool :=
  decide (topology_min_contained_fraction ≤ r.contained_fraction) &&
  decide (topology_min_cluster_fraction ≤ r.slice_cluster_fraction)

def muon_pred (r : Row) : Bool :=
  (List.range r.track_shower_scores.length).any (fun i =>
    decide (muon_min_track_score < r.track_shower_scores.getD i 0) &&
    decide (muon_min_track_length < r.track_length.getD i 0) &&
    decide (r.track_distance_to_vertex.getD i 0 < muon_max_track_distance) &&
    decide (r.pfp_generations.getD i 0 = muon_required_generation))

/-- `selection::apply` (Selection.h lines 40-101): each atomic preset filters
the rows by its predicate; `InclusiveMuCC` chains Trigger, Slice, Fiducial,
Topology, Muon in that order. -/
def selection_apply (src : Source) (p : Preset) (rows : List Row) : List Row :=
  match p with
  | Preset.Empty => rows
  | Preset.Trigger => rows.filter (trigger_pred src)
  | Preset.Slice => rows.filter slice_pred
  | Preset.Fiducial => rows.filter fiducial_pred
  | Preset.Topology => rows.filter topology_pred
  | Preset.Muon => rows.filter muon_pred
  | Preset.InclusiveMuCC =>
    ((((rows.filter (trigger_pred src)).filter
        slice_pred).filter
        fiducial_pred).filter
        topology_pred).filter
        muon_pred

/-- The atomic predicate of a non-composite preset. -/
def preset_pred (src : Source) (p : Preset) (r : Row) : Bool :=
  match p with
  | Preset.Empty => true
  | Preset.Trigger => trigger_pred src r
  | Preset.Slice => slice_pred r
  | Preset.Fiducial => fiducial_pred r
  | Preset.Topology => topology_pred r
  | Preset.Muon => muon_pred r
  | Preset.InclusiveMuCC =>
    trigger_pred src r && (slice_pred r && (fiducial_pred r &&
      (topology_pred r && muon_pred r)))

/-! ## Helper lemmas -/

theorem class_rescale_pos (total tw : ℚ) (htw : 0 ≤ tw) : 0 < class_rescale total tw := by
  unfold class_rescale
  split_ifs with h
  · exact div_pos (by linarith) h
  · norm_num

theorem mem_period_filter (pdb : List (Nat × List EntryM)) (per : Nat) (p : EntryM → Bool)
    (e : EntryM) :
    (e ∈ match assoc_find pdb per with
      | none => ([] : List EntryM)
      | some entries => entries.filter p) ↔
      ∃ es, assoc_find pdb per = some es ∧ e ∈ es ∧ p e := by
  rcases h : assoc_find pdb per with _ | es <;> simp [h, List.mem_filter]

/-! ## Claims -/

/-- Claim C5 counterexample: the code maps the 64-bit hash value `h` to
`(h + 0.5) * (1 / (2^64 - 1))`; at the maximal hash value `2^64 - 1` (attained
by the identity hash, which is what libstdc++'s `std::hash<std::uint64_t>`
computes, at the key `(2^64 - 1) XOR seed`) the exact value is
`(2^64 - 1/2) / (2^64 - 1) > 1`, so the variate is not strictly less than 1. -/
theorem C5_counterexample :
    ¬ (stable_uniform (fun x => x) ((2 ^ 64 - 1) ^^^ 12345) < 1) := by
  have hx : ((((2 ^ 64 - 1 : Nat) ^^^ 12345) ^^^ kTrainingSeed) % 2 ^ 64) % 2 ^ 64
      = 2 ^ 64 - 1 := by decide
  unfold stable_uniform
  rw [hx]
  norm_num

/-- Claim C5 (amended): `stable_uniform` is a pure function of the key and its
value is always strictly greater than 0; it is strictly less than 1 provided
the 64-bit hash value is below the maximal value `2^64 - 1` (at the maximum
the exact value exceeds 1, which is why `build_training_sets` separately
guards `u > 0 && u < 1`). -/
theorem C5_stable_uniform_bounds (hash : Nat → Nat) (key : Nat) :
    0 < stable_uniform hash key ∧
      (hash ((key ^^^ kTrainingSeed) % 2 ^ 64) % 2 ^ 64 < 2 ^ 64 - 1 →
        stable_uniform hash key < 1) := by
  unfold stable_uniform
  constructor
  · positivity
  · intro hlt
    have h2 : hash ((key ^^^ kTrainingSeed) % 2 ^ 64) % 2 ^ 64 ≤ 2 ^ 64 - 2 := by omega
    generalize hash ((key ^^^ kTrainingSeed) % 2 ^ 64) % 2 ^ 64 = m at h2 ⊢
    rw [mul_one_div, div_lt_one (by norm_num)]
    have hle : ((m : Nat) : ℚ) ≤ ((2 ^ 64 - 2 : Nat) : ℚ) := Nat.cast_le.mpr h2
    have he : ((2 ^ 64 - 2 : Nat) : ℚ) = (2 : ℚ) ^ 64 - 2 := by norm_num
    rw [he] at hle
    linarith

theorem C5_stable_uniform_bounds_witness :
    ((fun x => x) ((0 ^^^ kTrainingSeed) % 2 ^ 64) % 2 ^ 64 < 2 ^ 64 - 1 ∧
      (0 < stable_uniform (fun x => x) 0 ∧ stable_uniform (fun x => x) 0 < 1)) :=
  ⟨by decide, (C5_stable_uniform_bounds (fun x => x) 0).1,
    (C5_stable_uniform_bounds (fun x => x) 0).2 (by decide)⟩

/-- Claim C6: with an empty candidate list or a zero quota, `select_top`
returns the empty id set with zero summed weight (and no error); the rescale
factor computed from this degenerate selection is `1.0`, and in general the
factor is `total / (total - training_weight)` when the denominator is
strictly positive and `1.0` otherwise. -/
theorem C6_partition_degeneracy (cands : List TrainCandidate) (n : Nat)
    (hdeg : cands = [] ∨ n = 0) :
    select_top cands n = ⟨∅, 0⟩ ∧
    class_rescale ((cands.map TrainCandidate.weight).sum) (select_top cands n).sum_weight
      = 1 ∧
    (∀ total tw : ℚ,
      (0 < total - tw → class_rescale total tw = total / (total - tw)) ∧
      (¬ 0 < total - tw → class_rescale total tw = 1)) := by
  have hsel : select_top cands n = ⟨∅, 0⟩ := by
    unfold select_top select_top_perm
    rw [if_pos hdeg]
  refine ⟨hsel, ?_, ?_⟩
  · rw [hsel]
    unfold class_rescale
    simp only [sub_zero]
    split_ifs with h
    · exact div_self (ne_of_gt h)
    · rfl
  · intro total tw
    constructor <;> intro h <;> unfold class_rescale
    · rw [if_pos h]
    · rw [if_neg h]

theorem C6_partition_degeneracy_witness :
    (([] : List TrainCandidate) = [] ∨ (5 : Nat) = 0) ∧
      select_top [] 5 = ⟨∅, 0⟩ :=
  ⟨Or.inl rfl, (C6_partition_degeneracy [] 5 (Or.inl rfl)).1⟩

/-- Claim C8 counterexample: `Hub::simulation_entries` keeps every entry whose
source is not `Data`, so a catalog holding a single `Ext`
(BackgroundEstimate) entry has that non-Simulation entry in the result of
`simulation_entries`, refuting "exactly those whose dataset kind is
Simulation". -/
theorem C8_counterexample :
    (⟨0, 0, Source.Ext⟩ : EntryM) ∈
        simulation_entries [(0, [(0, [⟨0, 0, Source.Ext⟩])])] 0 [0] ∧
      (⟨0, 0, Source.Ext⟩ : EntryM).source ≠ Source.MC := by
  decide

/-- Claim C8 (amended): for every beamline and period list,
`simulation_entries` returns exactly the catalog entries of that beamline and
those periods whose dataset kind is not Data (i.e. Simulation and
BackgroundEstimate entries), and `data_entries` returns exactly those whose
dataset kind is Data. -/
theorem C8_entry_accessors (db : HubDB) (beamline : Nat) (periods : List Nat) (e : EntryM) :
    (e ∈ simulation_entries db beamline periods ↔
      ∃ pdb, assoc_find db beamline = some pdb ∧
        ∃ per ∈ periods, ∃ es, assoc_find pdb per = some es ∧ e ∈ es ∧
          e.source ≠ Source.Data) ∧
    (e ∈ data_entries db beamline periods ↔
      ∃ pdb, assoc_find db beamline = some pdb ∧
        ∃ per ∈ periods, ∃ es, assoc_find pdb per = some es ∧ e ∈ es ∧
          e.source = Source.Data) := by
  constructor
  · unfold simulation_entries
    rcases h : assoc_find db beamline with _ | pdb
    · simp
    · simp only [List.mem_flatMap, Option.some.injEq]
      constructor
      · rintro ⟨per, hper, hmem⟩
        rcases (mem_period_filter pdb per _ e).mp hmem with ⟨es, hes, hin, hp⟩
        exact ⟨pdb, rfl, per, hper, es, hes, hin, by simpa using hp⟩
      · rintro ⟨pdb2, hpdb2, per, hper, es, hes, hin, hp⟩
        cases hpdb2
        exact ⟨per, hper, (mem_period_filter pdb per _ e).mpr ⟨es, hes, hin, by simpa using hp⟩⟩
  · unfold data_entries
    rcases h : assoc_find db beamline with _ | pdb
    · simp
    · simp only [List.mem_flatMap, Option.some.injEq]
      constructor
      · rintro ⟨per, hper, hmem⟩
        rcases (mem_period_filter pdb per _ e).mp hmem with ⟨es, hes, hin, hp⟩
        exact ⟨pdb, rfl, per, hper, es, hes, hin, by simpa using hp⟩
      · rintro ⟨pdb2, hpdb2, per, hper, es, hes, hin, hp⟩
        cases hpdb2
        exact ⟨per, hper, (mem_period_filter pdb per _ e).mpr ⟨es, hes, hin, by simpa using hp⟩⟩

/-- Claim C10: the Trigger preset's photoelectron and software-trigger
thresholds gate only `MC` (Simulation) entries; for a `Data` or `Ext`
(BackgroundEstimate) entry the predicate is unconditionally true, so the
Trigger stage passes every row unchanged. -/
theorem C10_trigger_nonmc (src : Source) (rows : List Row)
    (h : src = Source.Data ∨ src = Source.Ext) :
    (∀ r : Row, trigger_pred src r = true) ∧
      selection_apply src Preset.Trigger rows = rows := by
  have hpred : ∀ r : Row, trigger_pred src r = true := by
    intro r
    unfold trigger_pred
    rcases h with h | h <;> subst h <;> simp
  refine ⟨hpred, ?_⟩
  simpa [selection_apply] using List.filter_eq_self.mpr (fun a _ => hpred a)

theorem C10_trigger_nonmc_witness :
    (Source.Ext = Source.Data ∨ Source.Ext = Source.Ext) ∧
      selection_apply Source.Ext Preset.Trigger
          [⟨1, 1, 1, 1, 1, true, 1, 1, [], [], [], []⟩] =
        [⟨1, 1, 1, 1, 1, true, 1, 1, [], [], [], []⟩] :=
  ⟨Or.inr rfl,
    (C10_trigger_nonmc Source.Ext [⟨1, 1, 1, 1, 1, true, 1, 1, [], [], [], []⟩]
      (Or.inr rfl)).2⟩

/-! ## Channel classification (C7) -/

theorem classify_first_match_nil : classify_first_match [] = Channel.Unknown := rfl

theorem classify_first_match_cons (b : Bool) (ch : Channel) (rest : List (Bool × Channel)) :
    classify_first_match ((b, ch) :: rest) = if b then ch else classify_first_match rest := by
  cases b <;> simp [classify_first_match, List.find?]

/-- Claim C7: the interaction-channel classifier is a total function equal,
at every input combination, to the first-match-wins evaluation of the ordered
rule list with the explicit `Unknown` fallback: exactly one label of the
closed enumeration is assigned, every combination not matched by an earlier
rule falls through to `Unknown`, and no input errors. -/
theorem C7_channel_total (fv : Bool) (nu ccnc s np npim npip npi0 ngamma : Int) :
    analysis_channels fv nu ccnc s np npim npip npi0 ngamma =
      classify_first_match (channel_rules fv nu ccnc s np npim npip npi0 ngamma) := by
  simp only [channel_rules, classify_first_match_cons, classify_first_match_nil,
    Bool.and_eq_true, Bool.or_eq_true, decide_eq_true_eq, Bool.not_eq_true']
  unfold analysis_channels
  cases fv with
  | false => by_cases hnu : nu = 0 <;> simp [hnu]
  | true =>
    by_cases hnc : ccnc = 1
    · simp [hnc]
    · by_cases hc0 : ccnc = 0
      · by_cases hs : 0 < s
        · by_cases hs1 : s = 1 <;> simp [hnc, hc0, hs, hs1]
        · by_cases h12 : nu.natAbs = 12
          · simp [hnc, hc0, hs, h12]
          · by_cases h14 : nu.natAbs = 14 <;> simp [hnc, hc0, hs, h12, h14]
      · simp [hnc, hc0]

/-! ## Selection stages (C9) -/

theorem selection_apply_atom (src : Source) (p : Preset) (rows : List Row) :
    selection_apply src p rows = rows.filter (preset_pred src p) := by
  cases p
  case Empty =>
    symm
    exact List.filter_eq_self.mpr (fun a _ => rfl)
  case Trigger => rfl
  case Slice => rfl
  case Fiducial => rfl
  case Topology => rfl
  case Muon => rfl
  case InclusiveMuCC =>
    show ((((rows.filter (trigger_pred src)).filter slice_pred).filter
      fiducial_pred).filter topology_pred).filter muon_pred = _
    rw [List.filter_filter, List.filter_filter, List.filter_filter, List.filter_filter]
    apply List.filter_congr
    intro r _
    simp [preset_pred, Bool.and_comm, Bool.and_left_comm, Bool.and_assoc]

theorem perm_all {α : Type} {l1 l2 : List α} (h : l1.Perm l2) (f : α → Bool) :
    l1.all f = l2.all f := by
  cases hb : l2.all f
  · rcases List.all_eq_false.mp hb with ⟨x, hx, hfx⟩
    exact List.all_eq_false.mpr ⟨x, h.mem_iff.mpr hx, hfx⟩
  · exact List.all_eq_true.mpr (fun x hx => List.all_eq_true.mp hb x (h.mem_iff.mp hx))

theorem foldl_selection_apply (src : Source) (atoms : List Preset) :
    ∀ rows : List Row,
      atoms.foldl (fun acc p => selection_apply src p acc) rows =
        rows.filter (fun r => atoms.all (fun p => preset_pred src p r)) := by
  induction atoms with
  | nil => intro rows; simp
  | cons p ps ih =>
    intro rows
    simp only [List.foldl_cons, List.all_cons]
    rw [selection_apply_atom, ih, List.filter_filter]
    apply List.filter_congr
    intro r _
    cases preset_pred src p r <;> simp

/-- Claim C9: a row passes the composite `InclusiveMuCC` preset iff it
satisfies the conjunction of the Trigger, Slice, Fiducial, Topology and Muon
atomic predicates; applying the five atoms in any order yields the same
selected rows as the composite; and the stage-by-stage cutflow counts are
non-increasing at every stage. -/
theorem C9_inclusive_mucc (src : Source) (rows : List Row) :
    (∀ r : Row, r ∈ selection_apply src Preset.InclusiveMuCC rows ↔
      r ∈ rows ∧ (trigger_pred src r ∧ slice_pred r ∧ fiducial_pred r ∧
        topology_pred r ∧ muon_pred r)) ∧
    (∀ atoms : List Preset,
      atoms.Perm [Preset.Trigger, Preset.Slice, Preset.Fiducial, Preset.Topology,
        Preset.Muon] →
      atoms.foldl (fun acc p => selection_apply src p acc) rows =
        selection_apply src Preset.InclusiveMuCC rows) ∧
    ((selection_apply src Preset.Trigger rows).length ≤ rows.length ∧
     (selection_apply src Preset.Slice (selection_apply src Preset.Trigger rows)).length ≤
       (selection_apply src Preset.Trigger rows).length ∧
     (selection_apply src Preset.Fiducial (selection_apply src Preset.Slice
         (selection_apply src Preset.Trigger rows))).length ≤
       (selection_apply src Preset.Slice (selection_apply src Preset.Trigger rows)).length ∧
     (selection_apply src Preset.Topology (selection_apply src Preset.Fiducial
         (selection_apply src Preset.Slice
           (selection_apply src Preset.Trigger rows)))).length ≤
       (selection_apply src Preset.Fiducial (selection_apply src Preset.Slice
         (selection_apply src Preset.Trigger rows))).length ∧
     (selection_apply src Preset.Muon (selection_apply src Preset.Topology
         (selection_apply src Preset.Fiducial (selection_apply src Preset.Slice
           (selection_apply src Preset.Trigger rows))))).length ≤
       (selection_apply src Preset.Topology (selection_apply src Preset.Fiducial
         (selection_apply src Preset.Slice
           (selection_apply src Preset.Trigger rows)))).length) := by
  refine ⟨?_, ?_, ?_, ?_, ?_, ?_, ?_⟩
  · intro r
    rw [selection_apply_atom, List.mem_filter]
    simp [preset_pred]
  · intro atoms hperm
    rw [foldl_selection_apply, selection_apply_atom]
    apply List.filter_congr
    intro r _
    rw [perm_all hperm]
    simp [preset_pred]
  · rw [selection_apply_atom]; exact List.length_filter_le _ _
  · rw [selection_apply_atom]; exact List.length_filter_le _ _
  · rw [selection_apply_atom]; exact List.length_filter_le _ _
  · rw [selection_apply_atom]; exact List.length_filter_le _ _
  · rw [selection_apply_atom]; exact List.length_filter_le _ _

theorem C9_inclusive_mucc_witness :
    ([Preset.Slice, Preset.Trigger, Preset.Fiducial, Preset.Topology, Preset.Muon].Perm
        [Preset.Trigger, Preset.Slice, Preset.Fiducial, Preset.Topology, Preset.Muon]) ∧
      [Preset.Slice, Preset.Trigger, Preset.Fiducial, Preset.Topology,
          Preset.Muon].foldl
          (fun acc p => selection_apply Source.MC p acc)
          [⟨1, 1, 1, 1, 1, true, 1, 1, [], [], [], []⟩] =
        selection_apply Source.MC Preset.InclusiveMuCC
          [⟨1, 1, 1, 1, 1, true, 1, 1, [], [], [], []⟩] :=
  ⟨List.Perm.swap Preset.Trigger Preset.Slice
      [Preset.Fiducial, Preset.Topology, Preset.Muon],
    (C9_inclusive_mucc Source.MC [⟨1, 1, 1, 1, 1, true, 1, 1, [], [], [], []⟩]).2.1 _
      (List.Perm.swap Preset.Trigger Preset.Slice
        [Preset.Fiducial, Preset.Topology, Preset.Muon])⟩

/-! ## EventKey codec (C4) -/

theorem make_event_key_decomp (run sub evt : Nat) (hr : run < 2 ^ 22) (hs : sub < 2 ^ 21)
    (he : evt < 2 ^ 21) :
    make_event_key run sub evt = ((run <<< 42) ^^^ (sub <<< 21)) ^^^ evt := by
  unfold make_event_key
  have h1 : run % 2 ^ 32 = run := Nat.mod_eq_of_lt (by omega)
  have h2 : sub % 2 ^ 32 = sub := Nat.mod_eq_of_lt (by omega)
  have h3 : evt % 2 ^ 32 = evt := Nat.mod_eq_of_lt (by omega)
  have h4 : (run <<< 42) % 2 ^ 64 = run <<< 42 := by
    apply Nat.mod_eq_of_lt
    rw [Nat.shiftLeft_eq]
    calc run * 2 ^ 42 < 2 ^ 22 * 2 ^ 42 :=
          (Nat.mul_lt_mul_right (by norm_num)).mpr hr
      _ = 2 ^ 64 := by norm_num
  have h5 : (sub <<< 21) % 2 ^ 64 = sub <<< 21 := by
    apply Nat.mod_eq_of_lt
    rw [Nat.shiftLeft_eq]
    calc sub * 2 ^ 21 < 2 ^ 21 * 2 ^ 21 :=
          (Nat.mul_lt_mul_right (by norm_num)).mpr hs
      _ < 2 ^ 64 := by norm_num
  simp only [h1, h2, h3, h4, h5]

theorem make_event_key_decode_run (run sub evt : Nat) (hr : run < 2 ^ 22)
    (hs : sub < 2 ^ 21) (he : evt < 2 ^ 21) :
    make_event_key run sub evt >>> 42 = run := by
  rw [make_event_key_decomp run sub evt hr hs he]
  apply Nat.eq_of_testBit_eq
  intro i
  simp only [Nat.testBit_shiftRight, Nat.testBit_xor, Nat.testBit_shiftLeft, ge_iff_le]
  have e1 : 42 + i - 42 = i := by omega
  have hd1 : decide (42 ≤ 42 + i) = true := by simp only [decide_eq_true_eq]; omega
  have hd2 : decide (21 ≤ 42 + i) = true := by simp only [decide_eq_true_eq]; omega
  have hsub : sub.testBit (42 + i - 21) = false :=
    Nat.testBit_lt_two_pow (lt_of_lt_of_le hs (Nat.pow_le_pow_right (by norm_num) (by omega)))
  have hevt : evt.testBit (42 + i) = false :=
    Nat.testBit_lt_two_pow (lt_of_lt_of_le he (Nat.pow_le_pow_right (by norm_num) (by omega)))
  rw [e1, hd1, hd2, hsub, hevt]
  simp

theorem make_event_key_decode_sub (run sub evt : Nat) (hr : run < 2 ^ 22)
    (hs : sub < 2 ^ 21) (he : evt < 2 ^ 21) :
    (make_event_key run sub evt >>> 21) % 2 ^ 21 = sub := by
  rw [make_event_key_decomp run sub evt hr hs he]
  apply Nat.eq_of_testBit_eq
  intro i
  simp only [Nat.testBit_mod_two_pow, Nat.testBit_shiftRight, Nat.testBit_xor,
    Nat.testBit_shiftLeft, ge_iff_le]
  by_cases hi : i < 21
  · have hd0 : decide (i < 21) = true := by simp [hi]
    have hd1 : decide (42 ≤ 21 + i) = false := by simp only [decide_eq_false_iff_not]; omega
    have hd2 : decide (21 ≤ 21 + i) = true := by simp only [decide_eq_true_eq]; omega
    have e1 : 21 + i - 21 = i := by omega
    have hevt : evt.testBit (21 + i) = false :=
      Nat.testBit_lt_two_pow (lt_of_lt_of_le he (Nat.pow_le_pow_right (by norm_num) (by omega)))
    rw [hd0, hd1, hd2, e1, hevt]
    simp
  · have hd0 : decide (i < 21) = false := by simp [hi]
    have hsub : sub.testBit i = false :=
      Nat.testBit_lt_two_pow (lt_of_lt_of_le hs (Nat.pow_le_pow_right (by norm_num) (by omega)))
    rw [hd0, hsub]
    simp

theorem make_event_key_decode_evt (run sub evt : Nat) (hr : run < 2 ^ 22)
    (hs : sub < 2 ^ 21) (he : evt < 2 ^ 21) :
    make_event_key run sub evt % 2 ^ 21 = evt := by
  rw [make_event_key_decomp run sub evt hr hs he]
  apply Nat.eq_of_testBit_eq
  intro i
  simp only [Nat.testBit_mod_two_pow, Nat.testBit_xor, Nat.testBit_shiftLeft, ge_iff_le]
  by_cases hi : i < 21
  · have hd0 : decide (i < 21) = true := by simp [hi]
    have hd1 : decide (42 ≤ i) = false := by simp only [decide_eq_false_iff_not]; omega
    have hd2 : decide (21 ≤ i) = false := by simp only [decide_eq_false_iff_not]; omega
    rw [hd0, hd1, hd2]
    simp
  · have hd0 : decide (i < 21) = false := by simp [hi]
    have hevt : evt.testBit i = false :=
      Nat.testBit_lt_two_pow (lt_of_lt_of_le he (Nat.pow_le_pow_right (by norm_num) (by omega)))
    rw [hd0, hevt]
    simp

/-- Claim C4: over the bounded domain `run < 2^22`, `sub < 2^21`, `evt < 2^21`
the event-key encoding is injective: distinct triples always produce distinct
64-bit keys (each component is recovered from its disjoint bit range). -/
theorem C4_event_key_injective (r1 s1 e1 r2 s2 e2 : Nat)
    (hr1 : r1 < 2 ^ 22) (hs1 : s1 < 2 ^ 21) (he1 : e1 < 2 ^ 21)
    (hr2 : r2 < 2 ^ 22) (hs2 : s2 < 2 ^ 21) (he2 : e2 < 2 ^ 21)
    (hne : (r1, s1, e1) ≠ (r2, s2, e2)) :
    make_event_key r1 s1 e1 ≠ make_event_key r2 s2 e2 := by
  intro heq
  apply hne
  have hrun : r1 = r2 := by
    rw [← make_event_key_decode_run r1 s1 e1 hr1 hs1 he1, heq,
      make_event_key_decode_run r2 s2 e2 hr2 hs2 he2]
  have hsub : s1 = s2 := by
    rw [← make_event_key_decode_sub r1 s1 e1 hr1 hs1 he1, heq,
      make_event_key_decode_sub r2 s2 e2 hr2 hs2 he2]
  have hevt : e1 = e2 := by
    rw [← make_event_key_decode_evt r1 s1 e1 hr1 hs1 he1, heq,
      make_event_key_decode_evt r2 s2 e2 hr2 hs2 he2]
  simp [hrun, hsub, hevt]

theorem C4_event_key_injective_witness :
    ((1 : Nat) < 2 ^ 22 ∧ (2 : Nat) < 2 ^ 21 ∧ (3 : Nat) < 2 ^ 21 ∧
      (4 : Nat) < 2 ^ 21 ∧ ((1, 2, 3) : Nat × Nat × Nat) ≠ (1, 2, 4)) ∧
    make_event_key 1 2 3 ≠ make_event_key 1 2 4 :=
  ⟨by decide,
    C4_event_key_injective 1 2 3 1 2 4 (by decide) (by decide) (by decide) (by decide)
      (by decide) (by decide) (by decide)⟩

/-! ## Weighted top-k selection machinery (C3, C1, C2) -/

theorem select_pass_gt_spec (cutoff : ℚ) :
    ∀ (l : List TrainCandidate) (ids : Finset Nat) (sw : ℚ) (cnt : Nat),
      (∀ c ∈ l, cutoff < c.key → c.event_key ∉ ids) →
      ((l.map TrainCandidate.event_key).Nodup) →
      select_pass_gt l cutoff (ids, sw, cnt) =
        (ids ∪ ((l.filter (fun c => cutoff < c.key)).map TrainCandidate.event_key).toFinset,
         sw + ((l.filter (fun c => cutoff < c.key)).map TrainCandidate.weight).sum,
         cnt + (l.filter (fun c => cutoff < c.key)).length) := by
  intro l
  induction l with
  | nil => intro ids sw cnt _ _; simp [select_pass_gt]
  | cons c rest ih =>
    intro ids sw cnt hdisj hnd
    rw [List.map_cons, List.nodup_cons] at hnd
    by_cases hc : cutoff < c.key
    · have hnotin : c.event_key ∉ ids := hdisj c (List.mem_cons_self c rest) hc
      have hdisj2 : ∀ d ∈ rest, cutoff < d.key → d.event_key ∉ insert c.event_key ids := by
        intro d hd hdk
        rw [Finset.mem_insert]
        push_neg
        exact ⟨fun hcontra => hnd.1 (hcontra ▸ List.mem_map_of_mem TrainCandidate.event_key hd),
          hdisj d (List.mem_cons_of_mem c hd) hdk⟩
      have hstep : select_pass_gt (c :: rest) cutoff (ids, sw, cnt) =
          select_pass_gt rest cutoff (insert c.event_key ids, sw + c.weight, cnt + 1) := by
        simp [select_pass_gt, hc, hnotin]
      rw [hstep, ih (insert c.event_key ids) (sw + c.weight) (cnt + 1) hdisj2 hnd.2,
        List.filter_cons_of_pos (by simpa using hc)]
      simp only [List.map_cons, List.toFinset_cons, List.sum_cons, List.length_cons,
        Prod.mk.injEq]
      refine ⟨?_, ?_, ?_⟩
      · rw [Finset.insert_union, Finset.union_insert]
      · rw [add_assoc]
      · omega
    · have hstep : select_pass_gt (c :: rest) cutoff (ids, sw, cnt) =
          select_pass_gt rest cutoff (ids, sw, cnt) := by
        simp [select_pass_gt, hc]
      rw [hstep, ih ids sw cnt (fun d hd hdk => hdisj d (List.mem_cons_of_mem c hd) hdk) hnd.2,
        List.filter_cons_of_neg (by simpa using hc)]

theorem select_pass_eq_spec (cutoff : ℚ) (n : Nat) :
    ∀ (l : List TrainCandidate) (ids : Finset Nat) (sw : ℚ) (cnt : Nat),
      (∀ c ∈ l, c.key = cutoff → c.event_key ∉ ids) →
      ((l.map TrainCandidate.event_key).Nodup) →
      cnt < n →
      select_pass_eq l cutoff n (ids, sw, cnt) =
        (ids ∪ (((l.filter (fun c => c.key = cutoff)).take (n - cnt)).map
            TrainCandidate.event_key).toFinset,
         sw + (((l.filter (fun c => c.key = cutoff)).take (n - cnt)).map
            TrainCandidate.weight).sum,
         cnt + ((l.filter (fun c => c.key = cutoff)).take (n - cnt)).length) := by
  intro l
  induction l with
  | nil => intro ids sw cnt _ _ _; simp [select_pass_eq]
  | cons c rest ih =>
    intro ids sw cnt hdisj hnd hcnt
    rw [List.map_cons, List.nodup_cons] at hnd
    by_cases hc : c.key = cutoff
    · have hnotin : c.event_key ∉ ids := hdisj c (List.mem_cons_self c rest) hc
      have htake : n - cnt = (n - (cnt + 1)) + 1 := by omega
      rw [List.filter_cons_of_pos (by simpa using hc), htake, List.take_succ_cons]
      by_cases hbreak : cnt + 1 = n
      · have hstep : select_pass_eq (c :: rest) cutoff n (ids, sw, cnt) =
            (insert c.event_key ids, sw + c.weight, cnt + 1) := by
          simp [select_pass_eq, hc, hnotin, hbreak]
        have hzero : n - (cnt + 1) = 0 := by omega
        rw [hstep, hzero]
        simp only [List.take_zero, List.map_cons, List.map_nil, List.toFinset_cons,
          List.toFinset_nil, List.sum_cons, List.sum_nil, List.length_cons,
          List.length_nil, Prod.mk.injEq]
        refine ⟨?_, ?_, ?_⟩
        · rw [Finset.union_insert, Finset.union_empty]
        · rw [add_zero]
        · trivial
      · have hdisj2 : ∀ d ∈ rest, d.key = cutoff → d.event_key ∉ insert c.event_key ids := by
          intro d hd hdk
          rw [Finset.mem_insert]
          push_neg
          exact ⟨fun hcontra =>
              hnd.1 (hcontra ▸ List.mem_map_of_mem TrainCandidate.event_key hd),
            hdisj d (List.mem_cons_of_mem c hd) hdk⟩
        have hstep : select_pass_eq (c :: rest) cutoff n (ids, sw, cnt) =
            select_pass_eq rest cutoff n (insert c.event_key ids, sw + c.weight, cnt + 1) := by
          simp [select_pass_eq, hc, hnotin, hbreak]
        rw [hstep, ih (insert c.event_key ids) (sw + c.weight) (cnt + 1) hdisj2 hnd.2
          (by omega)]
        simp only [List.map_cons, List.toFinset_cons, List.sum_cons, List.length_cons,
          Prod.mk.injEq]
        refine ⟨?_, ?_, ?_⟩
        · rw [Finset.insert_union, Finset.union_insert]
        · rw [add_assoc]
        · omega
    · have hstep : select_pass_eq (c :: rest) cutoff n (ids, sw, cnt) =
          select_pass_eq rest cutoff n (ids, sw, cnt) := by
        simp [select_pass_eq, hc]
      rw [hstep, ih ids sw cnt (fun d hd hdk => hdisj d (List.mem_cons_of_mem c hd) hdk)
        hnd.2 hcnt, List.filter_cons_of_neg (by simpa using hc)]

theorem length_le_countP_add_countP {α : Type} (p q : α → Bool) (l : List α)
    (h : ∀ a ∈ l, p a = true ∨ q a = true) :
    l.length ≤ l.countP p + l.countP q := by
  induction l with
  | nil => simp
  | cons a l ih =>
    have hih := ih (fun b hb => h b (List.mem_cons_of_mem a hb))
    rcases h a (List.mem_cons_self a l) with ha | ha <;>
      simp [List.countP_cons, ha] <;> omega

theorem cutoff_counts (cands : List TrainCandidate) (n : Nat) (hn : 0 < n)
    (hlen : n < cands.length) :
    (cands.filter (fun c => cutoffOf cands n < c.key)).length < n ∧
    n ≤ (cands.filter (fun c => cutoffOf cands n < c.key)).length +
      (cands.filter (fun c => c.key = cutoffOf cands n)).length := by
  have hsorted : (List.insertionSort (· ≤ ·) (cands.map TrainCandidate.key)).Sorted (· ≤ ·) :=
    List.sorted_insertionSort _ _
  have hperm : (List.insertionSort (· ≤ ·) (cands.map TrainCandidate.key)).Perm
      (cands.map TrainCandidate.key) := List.perm_insertionSort _ _
  set ks := List.insertionSort (· ≤ ·) (cands.map TrainCandidate.key) with hks
  have hlen2 : ks.length = cands.length := by rw [hperm.length_eq, List.length_map]
  set idx := cands.length - n with hidxdef
  have hidxlt : idx < ks.length := by omega
  have hcut : cutoffOf cands n = ks.get ⟨idx, hidxlt⟩ := by
    rw [cutoffOf, ← hks, List.get_eq_getElem]
    exact List.getD_eq_getElem ks 0 hidxlt
  set cutoff := ks.get ⟨idx, hidxlt⟩ with hcutdef
  rw [hcut]
  have hg1 : ks.countP (fun k => decide (cutoff < k))
      = (cands.filter (fun c => decide (cutoff < c.key))).length := by
    rw [hperm.countP_eq, List.countP_map, List.countP_eq_length_filter]
    rfl
  have hg2 : ks.countP (fun k => decide (k = cutoff))
      = (cands.filter (fun c => decide (c.key = cutoff))).length := by
    rw [hperm.countP_eq, List.countP_map, List.countP_eq_length_filter]
    rfl
  have hsorted2 : List.Sorted (· ≤ ·) (ks.take idx ++ ks.drop idx) := by
    rw [List.take_append_drop]; exact hsorted
  obtain ⟨-, -, hcross⟩ := List.pairwise_append.mp hsorted2
  have hdropeq : ks.drop idx = cutoff :: ks.drop (idx + 1) := by
    rw [hcutdef, List.get_eq_getElem]
    exact List.drop_eq_getElem_cons hidxlt
  have hcutmem : cutoff ∈ ks.drop idx := by
    rw [hdropeq]; exact List.mem_cons_self _ _
  have hdecomp : ∀ p : ℚ → Bool, ks.countP p =
      (ks.take idx).countP p + (ks.drop idx).countP p := by
    intro p
    conv_lhs => rw [← List.take_append_drop idx ks]
    rw [List.countP_append]
  have htake0 : (ks.take idx).countP (fun k => decide (cutoff < k)) = 0 := by
    rw [List.countP_eq_zero]
    intro a ha
    simp only [decide_eq_true_eq]
    exact not_lt.mpr (hcross a ha cutoff hcutmem)
  have hdroplen : (ks.drop idx).length = n := by
    rw [List.length_drop]; omega
  have hdropgt : (ks.drop idx).countP (fun k => decide (cutoff < k)) ≤ n - 1 := by
    rw [hdropeq, List.countP_cons]
    have hff : (decide (cutoff < cutoff) : Bool) = false := by simp
    simp only [hff, Bool.false_eq_true, if_false]
    have hlen3 : (ks.drop (idx + 1)).length = n - 1 := by rw [List.length_drop]; omega
    have hcle := @List.countP_le_length _ (fun k => decide (cutoff < k)) (ks.drop (idx + 1))
    omega
  have hdsorted : (ks.drop idx).Pairwise (· ≤ ·) :=
    List.Pairwise.sublist (List.drop_sublist idx ks) hsorted
  have hge : ∀ a ∈ ks.drop idx, cutoff ≤ a := by
    rw [hdropeq] at hdsorted ⊢
    intro a ha
    rcases List.mem_cons.mp ha with h | h
    · exact h ▸ le_refl _
    · exact (List.pairwise_cons.mp hdsorted).1 a h
  have hcount2 : (ks.drop idx).length ≤
      (ks.drop idx).countP (fun k => decide (cutoff < k)) +
      (ks.drop idx).countP (fun k => decide (k = cutoff)) := by
    apply length_le_countP_add_countP
    intro a ha
    rcases lt_or_eq_of_le (hge a ha) with h | h
    · left; simpa using h
    · right; simpa using h.symm
  have d1 := hdecomp (fun k => decide (cutoff < k))
  have d2 := hdecomp (fun k => decide (k = cutoff))
  constructor
  · rw [← hg1]
    omega
  · rw [← hg1, ← hg2]
    omega

theorem select_top_passes_spec (cutoff : ℚ) (n : Nat) (l : List TrainCandidate)
    (hnd : (l.map TrainCandidate.event_key).Nodup)
    (hm : (l.filter (fun c => cutoff < c.key)).length < n)
    (hfill : n ≤ (l.filter (fun c => cutoff < c.key)).length +
      (l.filter (fun c => c.key = cutoff)).length) :
    select_top_passes l cutoff n =
      ((((l.filter (fun c => cutoff < c.key)) ++
          ((l.filter (fun c => c.key = cutoff)).take
            (n - (l.filter (fun c => cutoff < c.key)).length))).map
          TrainCandidate.event_key).toFinset,
       (((l.filter (fun c => cutoff < c.key)) ++
          ((l.filter (fun c => c.key = cutoff)).take
            (n - (l.filter (fun c => cutoff < c.key)).length))).map
          TrainCandidate.weight).sum,
       n) := by
  have hgt := select_pass_gt_spec cutoff l ∅ 0 0 (by simp) hnd
  simp only [Finset.empty_union, zero_add, Nat.zero_add] at hgt
  have hdisj2 : ∀ c ∈ l, c.key = cutoff →
      c.event_key ∉ ((l.filter (fun c => cutoff < c.key)).map
        TrainCandidate.event_key).toFinset := by
    intro c hc hck hmem
    rw [List.mem_toFinset] at hmem
    obtain ⟨d, hd, hdk⟩ := List.mem_map.mp hmem
    have hdl : d ∈ l := List.mem_of_mem_filter hd
    have hdgt : cutoff < d.key := by simpa using (List.mem_filter.mp hd).2
    have hcd : d = c := List.inj_on_of_nodup_map hnd hdl hc hdk
    rw [hcd, hck] at hdgt
    exact lt_irrefl _ hdgt
  set F := l.filter (fun c => cutoff < c.key) with hF
  set E := l.filter (fun c => c.key = cutoff) with hE
  have heq := select_pass_eq_spec cutoff n l
    ((F.map TrainCandidate.event_key).toFinset)
    ((F.map TrainCandidate.weight).sum)
    (F.length) hdisj2 hnd hm
  unfold select_top_passes
  rw [hgt]
  rw [if_pos (show (((F.map TrainCandidate.event_key).toFinset,
      (F.map TrainCandidate.weight).sum, F.length) : Finset Nat × ℚ × Nat).2.2 < n from hm)]
  rw [heq]
  have htlen : (E.take (n - F.length)).length = n - F.length := by
    rw [List.length_take]
    omega
  simp only [List.map_append, List.toFinset_append, List.sum_append, Prod.mk.injEq]
  refine ⟨trivial, trivial, ?_⟩
  rw [htlen]
  omega

theorem select_top_perm_eq (l cands : List TrainCandidate) (n : Nat)
    (hnd : (cands.map TrainCandidate.event_key).Nodup) (hperm : l.Perm cands)
    (hn : 0 < n) (hlen : n < cands.length) :
    select_top_perm l cands n =
      ⟨((top_selection l cands n).map TrainCandidate.event_key).toFinset,
       ((top_selection l cands n).map TrainCandidate.weight).sum⟩ := by
  have hlnd : (l.map TrainCandidate.event_key).Nodup :=
    (hperm.map TrainCandidate.event_key).nodup_iff.mpr hnd
  have hcands := cutoff_counts cands n hn hlen
  have hfl : ∀ p : TrainCandidate → Bool, (l.filter p).length = (cands.filter p).length :=
    fun p => (hperm.filter p).length_eq
  have hm : (l.filter (fun c => cutoffOf cands n < c.key)).length < n := by
    rw [hfl]; exact hcands.1
  have hfill : n ≤ (l.filter (fun c => cutoffOf cands n < c.key)).length +
      (l.filter (fun c => c.key = cutoffOf cands n)).length := by
    rw [hfl, hfl]; exact hcands.2
  have hpass := select_top_passes_spec (cutoffOf cands n) n l hlnd hm hfill
  have hne : ¬(cands = [] ∨ n = 0) := by
    push_neg
    refine ⟨?_, by omega⟩
    intro h
    rw [h] at hlen
    simp at hlen
  unfold select_top_perm
  rw [if_neg hne, if_neg (by omega)]
  rw [hpass]
  simp only [top_selection]

theorem top_selection_facts (l cands : List TrainCandidate) (n : Nat)
    (hnd : (cands.map TrainCandidate.event_key).Nodup) (hperm : l.Perm cands)
    (hn : 0 < n) (hlen : n < cands.length) :
    ((top_selection l cands n).map TrainCandidate.event_key).Nodup ∧
    (top_selection l cands n).length = n ∧
    (∀ c ∈ top_selection l cands n, c ∈ l ∧ cutoffOf cands n ≤ c.key) ∧
    (∀ c ∈ l, cutoffOf cands n < c.key → c ∈ top_selection l cands n) := by
  have hlnd : (l.map TrainCandidate.event_key).Nodup :=
    (hperm.map TrainCandidate.event_key).nodup_iff.mpr hnd
  have hcands := cutoff_counts cands n hn hlen
  have hfl : ∀ p : TrainCandidate → Bool, (l.filter p).length = (cands.filter p).length :=
    fun p => (hperm.filter p).length_eq
  have hm : (l.filter (fun c => cutoffOf cands n < c.key)).length < n := by
    rw [hfl]; exact hcands.1
  have hfill : n ≤ (l.filter (fun c => cutoffOf cands n < c.key)).length +
      (l.filter (fun c => c.key = cutoffOf cands n)).length := by
    rw [hfl, hfl]; exact hcands.2
  set F := l.filter (fun c => cutoffOf cands n < c.key) with hF
  set E := l.filter (fun c => c.key = cutoffOf cands n) with hE
  have hFsub : (F.map TrainCandidate.event_key).Sublist (l.map TrainCandidate.event_key) :=
    List.Sublist.map _ (List.filter_sublist l)
  have hTsub : ((E.take (n - F.length)).map TrainCandidate.event_key).Sublist
      (l.map TrainCandidate.event_key) :=
    List.Sublist.map _ ((List.take_sublist _ _).trans (List.filter_sublist l))
  have hFnd : (F.map TrainCandidate.event_key).Nodup := List.Nodup.sublist hFsub hlnd
  have hTnd : ((E.take (n - F.length)).map TrainCandidate.event_key).Nodup :=
    List.Nodup.sublist hTsub hlnd
  have hdisjoint : (F.map TrainCandidate.event_key).Disjoint
      ((E.take (n - F.length)).map TrainCandidate.event_key) := by
    intro k hk1 hk2
    obtain ⟨c, hc, hck⟩ := List.mem_map.mp hk1
    obtain ⟨d, hd, hdk⟩ := List.mem_map.mp hk2
    have hcl : c ∈ l := List.mem_of_mem_filter hc
    have hdE : d ∈ E := List.mem_of_mem_take hd
    have hdl : d ∈ l := List.mem_of_mem_filter hdE
    have hcgt : cutoffOf cands n < c.key := by simpa using (List.mem_filter.mp hc).2
    have hdeq : d.key = cutoffOf cands n := by simpa using (List.mem_filter.mp hdE).2
    have hcd : c = d := List.inj_on_of_nodup_map hlnd hcl hdl (hck.trans hdk.symm)
    rw [hcd, hdeq] at hcgt
    exact lt_irrefl _ hcgt
  refine ⟨?_, ?_, ?_, ?_⟩
  · rw [top_selection, ← hF, ← hE, List.map_append, List.nodup_append]
    exact ⟨hFnd, hTnd, hdisjoint⟩
  · rw [top_selection, ← hF, ← hE, List.length_append, List.length_take]
    omega
  · intro c hc
    rw [top_selection, ← hF, ← hE] at hc
    rcases List.mem_append.mp hc with h | h
    · exact ⟨List.mem_of_mem_filter h,
        le_of_lt (by simpa using (List.mem_filter.mp h).2)⟩
    · have hcE : c ∈ E := List.mem_of_mem_take h
      have : c.key = cutoffOf cands n := by simpa using (List.mem_filter.mp hcE).2
      exact ⟨List.mem_of_mem_filter hcE, le_of_eq this.symm⟩
  · intro c hc hck
    rw [top_selection, ← hF, ← hE]
    refine List.mem_append_left _ ?_
    rw [hF]
    exact List.mem_filter.mpr ⟨hc, by simpa using hck⟩

/-- Claim C3: over candidate lists with pairwise-distinct event keys, for any
reordering `l` of the pool left by `std::nth_element`, when the quota `n` is
positive and the pool is larger than `n`, `select_top` returns exactly the
event keys of `top_selection` — the candidates with the largest sampling
keys, ties at the cutoff included in first-seen order until the quota is
filled — and that id set has exactly `n` keys, contains every candidate
strictly above the cutoff, and contains only candidates at or above the
cutoff; when the pool size is at most `n` it returns the keys of all
candidates. -/
theorem C3_select_top (l cands : List TrainCandidate) (n : Nat)
    (hnd : (cands.map TrainCandidate.event_key).Nodup) (hperm : l.Perm cands) :
    (0 < n → n < cands.length →
      ((select_top_perm l cands n).ids =
          ((top_selection l cands n).map TrainCandidate.event_key).toFinset ∧
        (select_top_perm l cands n).ids.card = n ∧
        (∀ c ∈ cands, cutoffOf cands n < c.key →
          c.event_key ∈ (select_top_perm l cands n).ids) ∧
        (∀ k ∈ (select_top_perm l cands n).ids, ∃ c, c ∈ cands ∧ c.event_key = k ∧
          cutoffOf cands n ≤ c.key))) ∧
    (cands.length ≤ n →
      (select_top_perm l cands n).ids = (cands.map TrainCandidate.event_key).toFinset) := by
  constructor
  · intro hn hlen
    have hsel := select_top_perm_eq l cands n hnd hperm hn hlen
    have hfacts := top_selection_facts l cands n hnd hperm hn hlen
    rw [hsel]
    refine ⟨rfl, ?_, ?_, ?_⟩
    · rw [List.toFinset_card_of_nodup hfacts.1, List.length_map]
      exact hfacts.2.1
    · intro c hc hck
      have hcl : c ∈ l := hperm.mem_iff.mpr hc
      have hmem := hfacts.2.2.2 c hcl hck
      exact List.mem_toFinset.mpr (List.mem_map_of_mem TrainCandidate.event_key hmem)
    · intro k hk
      obtain ⟨c, hc, hck⟩ := List.mem_map.mp (List.mem_toFinset.mp hk)
      have hfc := hfacts.2.2.1 c hc
      exact ⟨c, hperm.mem_iff.mp hfc.1, hck, hfc.2⟩
  · intro hle
    by_cases h1 : cands = [] ∨ n = 0
    · have hcnil : cands = [] := by
        rcases h1 with h | h
        · exact h
        · rw [h] at hle
          exact List.length_eq_zero.mp (by omega)
      unfold select_top_perm
      rw [if_pos h1, hcnil]
      simp
    · unfold select_top_perm
      rw [if_neg h1, if_pos hle]

theorem sum_filter_key_mem_sublist (f : TrainCandidate → ℚ)
    {S L : List TrainCandidate} (hsub : S.Sublist L) :
    (L.map TrainCandidate.event_key).Nodup →
    ((L.filter (fun c =>
        c.event_key ∈ (S.map TrainCandidate.event_key).toFinset)).map f).sum
      = (S.map f).sum := by
  induction hsub with
  | slnil => intro _; simp
  | cons a hsub ih =>
    intro hnd
    rw [List.map_cons, List.nodup_cons] at hnd
    rw [List.filter_cons_of_neg ?_]
    · exact ih hnd.2
    · simp only [decide_eq_true_eq, List.mem_toFinset]
      intro hmem
      obtain ⟨c, hc, hck⟩ := List.mem_map.mp hmem
      have hcl : c ∈ _ := hsub.subset hc
      exact hnd.1 (hck ▸ List.mem_map_of_mem TrainCandidate.event_key hcl)
  | cons₂ a hsub ih =>
    intro hnd
    rw [List.map_cons, List.nodup_cons] at hnd
    rw [List.filter_cons_of_pos ?_]
    · simp only [List.map_cons, List.sum_cons]
      congr 1
      rw [List.filter_congr ?_]
      · exact ih hnd.2
      · intro c hc
        have hck : c.event_key ≠ a.event_key := by
          intro h
          exact hnd.1 (h ▸ List.mem_map_of_mem TrainCandidate.event_key hc)
        simp [List.toFinset_cons, hck]
    · simp [List.toFinset_cons]

theorem sum_filter_key_mem (f : TrainCandidate → ℚ) (L S : List TrainCandidate)
    (hnd : (L.map TrainCandidate.event_key).Nodup)
    (hSnd : (S.map TrainCandidate.event_key).Nodup)
    (hsubset : ∀ c ∈ S, c ∈ L) :
    ((L.filter (fun c =>
        c.event_key ∈ (S.map TrainCandidate.event_key).toFinset)).map f).sum
      = (S.map f).sum := by
  have hSnodup : S.Nodup := List.Nodup.of_map _ hSnd
  obtain ⟨S0, hS0perm, hS0sub⟩ :=
    List.Nodup.subperm hSnodup (fun c hc => hsubset c hc)
  have hkeys : (S0.map TrainCandidate.event_key).toFinset
      = (S.map TrainCandidate.event_key).toFinset :=
    List.toFinset_eq_of_perm _ _ (hS0perm.map _)
  rw [← hkeys, sum_filter_key_mem_sublist f hS0sub hnd]
  exact (hS0perm.map f).sum_eq

theorem select_top_perm_sum (l cands : List TrainCandidate) (n : Nat)
    (hnd : (cands.map TrainCandidate.event_key).Nodup) (hperm : l.Perm cands) :
    (select_top_perm l cands n).sum_weight =
      ((cands.filter (fun c => c.event_key ∈ (select_top_perm l cands n).ids)).map
        TrainCandidate.weight).sum := by
  by_cases h1 : cands = [] ∨ n = 0
  · rw [show select_top_perm l cands n = ⟨∅, 0⟩ from by
      unfold select_top_perm; rw [if_pos h1]]
    simp
  · by_cases h2 : cands.length ≤ n
    · rw [show select_top_perm l cands n =
          ⟨(cands.map TrainCandidate.event_key).toFinset,
            (cands.map TrainCandidate.weight).sum⟩ from by
        unfold select_top_perm; rw [if_neg h1, if_pos h2]]
      rw [List.filter_eq_self.mpr ?_]
      intro c hc
      simp only [decide_eq_true_eq, List.mem_toFinset]
      exact List.mem_map_of_mem _ hc
    · push_neg at h1 h2
      have hn : 0 < n := Nat.pos_of_ne_zero h1.2
      have hlen : n < cands.length := h2
      rw [select_top_perm_eq l cands n hnd hperm hn hlen]
      have hfacts := top_selection_facts l cands n hnd hperm hn hlen
      have hlnd : (l.map TrainCandidate.event_key).Nodup :=
        (hperm.map TrainCandidate.event_key).nodup_iff.mpr hnd
      have hsubset : ∀ c ∈ top_selection l cands n, c ∈ l :=
        fun c hc => (hfacts.2.2.1 c hc).1
      have hsums := sum_filter_key_mem TrainCandidate.weight l (top_selection l cands n)
        hlnd hfacts.1 hsubset
      show ((top_selection l cands n).map TrainCandidate.weight).sum =
        ((cands.filter (fun c => c.event_key ∈
          ((top_selection l cands n).map TrainCandidate.event_key).toFinset)).map
            TrainCandidate.weight).sum
      rw [← hsums]
      exact ((hperm.filter _).map TrainCandidate.weight).sum_eq

theorem select_pass_gt_sw_mono (cutoff : ℚ) :
    ∀ (l : List TrainCandidate) (st : Finset Nat × ℚ × Nat),
      (∀ c ∈ l, 0 ≤ c.weight) → st.2.1 ≤ (select_pass_gt l cutoff st).2.1 := by
  intro l
  induction l with
  | nil => intro st _; rcases st with ⟨ids, sw, cnt⟩; simp [select_pass_gt]
  | cons c rest ih =>
    intro st hw
    rcases st with ⟨ids, sw, cnt⟩
    have hwc : 0 ≤ c.weight := hw c (List.mem_cons_self c rest)
    have hwr : ∀ d ∈ rest, 0 ≤ d.weight := fun d hd => hw d (List.mem_cons_of_mem c hd)
    by_cases h1 : cutoff < c.key
    · by_cases h2 : c.event_key ∈ ids
      · rw [show select_pass_gt (c :: rest) cutoff (ids, sw, cnt)
            = select_pass_gt rest cutoff (ids, sw, cnt) from by
          simp [select_pass_gt, h1, h2]]
        exact ih (ids, sw, cnt) hwr
      · rw [show select_pass_gt (c :: rest) cutoff (ids, sw, cnt)
            = select_pass_gt rest cutoff (insert c.event_key ids, sw + c.weight, cnt + 1)
            from by simp [select_pass_gt, h1, h2]]
        calc sw ≤ sw + c.weight := by linarith
          _ ≤ _ := ih (insert c.event_key ids, sw + c.weight, cnt + 1) hwr
    · rw [show select_pass_gt (c :: rest) cutoff (ids, sw, cnt)
          = select_pass_gt rest cutoff (ids, sw, cnt) from by
        simp [select_pass_gt, h1]]
      exact ih (ids, sw, cnt) hwr

theorem select_pass_eq_sw_mono (cutoff : ℚ) (n : Nat) :
    ∀ (l : List TrainCandidate) (st : Finset Nat × ℚ × Nat),
      (∀ c ∈ l, 0 ≤ c.weight) → st.2.1 ≤ (select_pass_eq l cutoff n st).2.1 := by
  intro l
  induction l with
  | nil => intro st _; rcases st with ⟨ids, sw, cnt⟩; simp [select_pass_eq]
  | cons c rest ih =>
    intro st hw
    rcases st with ⟨ids, sw, cnt⟩
    have hwc : 0 ≤ c.weight := hw c (List.mem_cons_self c rest)
    have hwr : ∀ d ∈ rest, 0 ≤ d.weight := fun d hd => hw d (List.mem_cons_of_mem c hd)
    by_cases h1 : c.key = cutoff
    · by_cases h2 : c.event_key ∈ ids
      · rw [show select_pass_eq (c :: rest) cutoff n (ids, sw, cnt)
            = select_pass_eq rest cutoff n (ids, sw, cnt) from by
          simp [select_pass_eq, h1, h2]]
        exact ih (ids, sw, cnt) hwr
      · by_cases h3 : cnt + 1 = n
        · rw [show select_pass_eq (c :: rest) cutoff n (ids, sw, cnt)
              = (insert c.event_key ids, sw + c.weight, cnt + 1) from by
            simp [select_pass_eq, h1, h2, h3]]
          show sw ≤ sw + c.weight
          linarith
        · rw [show select_pass_eq (c :: rest) cutoff n (ids, sw, cnt)
              = select_pass_eq rest cutoff n (insert c.event_key ids, sw + c.weight, cnt + 1)
              from by simp [select_pass_eq, h1, h2, h3]]
          calc sw ≤ sw + c.weight := by linarith
            _ ≤ _ := ih (insert c.event_key ids, sw + c.weight, cnt + 1) hwr
    · rw [show select_pass_eq (c :: rest) cutoff n (ids, sw, cnt)
          = select_pass_eq rest cutoff n (ids, sw, cnt) from by
        simp [select_pass_eq, h1]]
      exact ih (ids, sw, cnt) hwr

theorem select_top_perm_sum_nonneg (l cands : List TrainCandidate) (n : Nat)
    (hw : ∀ c ∈ l, 0 ≤ c.weight) (hw2 : ∀ c ∈ cands, 0 ≤ c.weight) :
    0 ≤ (select_top_perm l cands n).sum_weight := by
  by_cases h1 : cands = [] ∨ n = 0
  · rw [show select_top_perm l cands n = ⟨∅, 0⟩ from by
      unfold select_top_perm; rw [if_pos h1]]
  · by_cases h2 : cands.length ≤ n
    · rw [show select_top_perm l cands n =
          ⟨(cands.map TrainCandidate.event_key).toFinset,
            (cands.map TrainCandidate.weight).sum⟩ from by
        unfold select_top_perm; rw [if_neg h1, if_pos h2]]
      apply List.sum_nonneg
      intro x hx
      obtain ⟨c, hc, hcx⟩ := List.mem_map.mp hx
      exact hcx ▸ hw2 c hc
    · rw [show select_top_perm l cands n =
          ⟨(select_top_passes l (cutoffOf cands n) n).1,
            (select_top_passes l (cutoffOf cands n) n).2.1⟩ from by
        unfold select_top_perm; rw [if_neg h1, if_neg h2]]
      show 0 ≤ (select_top_passes l (cutoffOf cands n) n).2.1
      unfold select_top_passes
      have hgt := select_pass_gt_sw_mono (cutoffOf cands n) l (∅, 0, 0) hw
      split_ifs with hcond
      · calc (0 : ℚ) ≤ (select_pass_gt l (cutoffOf cands n) (∅, 0, 0)).2.1 := by
              simpa using hgt
          _ ≤ _ := select_pass_eq_sw_mono (cutoffOf cands n) n l _ hw
      · simpa using hgt

theorem hub_w_analysis_pos_case (s b w : ℚ) (hsig : Bool) (hw : 0 < w) (hs : 0 < s)
    (hb : 0 < b) :
    hub_w_analysis s b w hsig false = w * (if hsig then s else b) := by
  cases hsig
  case false =>
    simp only [hub_w_analysis, Bool.false_eq_true, if_false]
    rw [if_neg (not_le.mpr hw), if_neg (not_le.mpr (mul_pos hw hb))]
  case true =>
    simp only [hub_w_analysis, Bool.false_eq_true, if_false, eq_self_iff_true, if_true]
    rw [if_neg (not_le.mpr hw), if_neg (not_le.mpr (mul_pos hw hs))]

/-- For one class of the corpus scan, provided every valid row's uniform
variate passes the `(0,1)` guard and the candidate event keys are pairwise
distinct, the sum of `w_analysis` over the analysis (non-training) rows with
strictly positive nominal weight — each equal to its nominal weight times
an arbitrary strictly positive scale — is the class's analysis weight
(total − training weight) times that scale. -/
theorem analysis_sum_scaled (uok : Nat → Bool) (skey : Nat → ℚ → ℚ)
    (rows : List ScanRow) (l : List TrainCandidate) (n : Nat) (scale : ℚ)
    (huok : ∀ r ∈ rows, 0 < r.w_nominal → uok r.event_key = true)
    (hnd : ((gather_candidates uok skey rows).map TrainCandidate.event_key).Nodup)
    (hperm : l.Perm (gather_candidates uok skey rows))
    (hscalepos : 0 < scale) :
    ((rows.filter (fun r => decide (0 < r.w_nominal) &&
        decide (r.event_key ∉
          (select_top_perm l (gather_candidates uok skey rows) n).ids))).map
      (fun r => hub_w_analysis scale scale r.w_nominal true false)).sum
      = (gather_total uok rows -
          (select_top_perm l (gather_candidates uok skey rows) n).sum_weight) * scale := by
  have hvfilter : rows.filter (fun r => decide (0 < r.w_nominal) && uok r.event_key)
      = rows.filter (fun r => decide (0 < r.w_nominal)) :=
    List.filter_congr (fun r hr => by
      by_cases h : 0 < r.w_nominal
      · simp [h, huok r hr h]
      · simp [h])
  set cands := gather_candidates uok skey rows with hcandsdef
  set sel := select_top_perm l cands n with hseldef
  set T := gather_total uok rows with hTdef
  set V := rows.filter (fun r => decide (0 < r.w_nominal)) with hV
  have hcands : cands =
      V.map (fun r => ⟨r.event_key, skey r.event_key r.w_nominal, r.w_nominal⟩) := by
    rw [hcandsdef, gather_candidates, hvfilter, hV]
  have hT : T = (V.map ScanRow.w_nominal).sum := by
    rw [hTdef, gather_total, hvfilter, hV]
  have hVmem : ∀ r ∈ V, 0 < r.w_nominal := by
    intro r hr
    rw [hV] at hr
    simpa using (List.mem_filter.mp hr).2
  have hwc : ∀ c ∈ cands, 0 < c.weight := by
    intro c hc
    rw [hcands] at hc
    obtain ⟨r, hr, hrc⟩ := List.mem_map.mp hc
    rw [← hrc]
    exact hVmem r hr
  have hsw : sel.sum_weight =
      ((V.filter (fun r => r.event_key ∈ sel.ids)).map ScanRow.w_nominal).sum := by
    rw [hseldef, select_top_perm_sum l cands n hnd hperm, hcands, List.filter_map,
      List.map_map]
    rfl
  have hsplit : T =
      ((V.filter (fun r => r.event_key ∈ sel.ids)).map ScanRow.w_nominal).sum +
      ((V.filter (fun r => !(decide (r.event_key ∈ sel.ids)))).map ScanRow.w_nominal).sum := by
    rw [hT, ← List.sum_append, ← List.map_append]
    exact (((List.filter_append_perm _ V).map ScanRow.w_nominal).sum_eq).symm
  have hlhsfilter : rows.filter (fun r => decide (0 < r.w_nominal) &&
      decide (r.event_key ∉ sel.ids)) =
      V.filter (fun r => !(decide (r.event_key ∈ sel.ids))) := by
    rw [hV, List.filter_filter]
    apply List.filter_congr
    intro r hr
    simp [decide_not, Bool.and_comm]
  rw [hlhsfilter]
  have hpoint : ∀ r ∈ V.filter (fun r => !(decide (r.event_key ∈ sel.ids))),
      hub_w_analysis scale scale r.w_nominal true false = r.w_nominal * scale := by
    intro r hr
    rw [hub_w_analysis_pos_case scale scale r.w_nominal true
      (hVmem r (List.mem_of_mem_filter hr)) hscalepos hscalepos]
    simp
  rw [List.map_congr_left hpoint]
  have hmul : ((V.filter (fun r => !(decide (r.event_key ∈ sel.ids)))).map
      (fun r => r.w_nominal * scale)).sum =
      ((V.filter (fun r => !(decide (r.event_key ∈ sel.ids)))).map
        ScanRow.w_nominal).sum * scale := List.sum_map_mul_right _ _ _
  rw [hmul]
  have hrest : ((V.filter (fun r => !(decide (r.event_key ∈ sel.ids)))).map
      ScanRow.w_nominal).sum = T - sel.sum_weight := by
    linarith [hsw, hsplit]
  rw [hrest]

theorem unit_corpus_valid :
    List.filter (fun r => decide (0 < r.w_nominal) && (fun _ : Nat => true) r.event_key)
      unit_corpus = unit_corpus := by
  apply List.filter_eq_self.mpr
  intro r hr
  rw [unit_corpus] at hr
  obtain ⟨i, hi, rfl⟩ := List.mem_map.mp hr
  norm_num

theorem unit_corpus_candidates :
    gather_candidates (fun _ => true) (fun _ _ => 0) unit_corpus =
      List.map (fun r => ⟨r.event_key, 0, r.w_nominal⟩) unit_corpus := by
  rw [gather_candidates, unit_corpus_valid]

theorem unit_corpus_keys :
    List.map TrainCandidate.event_key
        (gather_candidates (fun _ => true) (fun _ _ => 0) unit_corpus) =
      List.map (fun i => make_event_key i 0 0) (List.range (kTrainingNSignal + 1)) := by
  rw [unit_corpus_candidates, unit_corpus, List.map_map, List.map_map]
  rfl

theorem unit_corpus_keys_nodup :
    (List.map TrainCandidate.event_key
      (gather_candidates (fun _ => true) (fun _ _ => 0) unit_corpus)).Nodup := by
  rw [unit_corpus_keys]
  refine List.Nodup.map_on ?_ (List.nodup_range _)
  intro i hi j hj hij
  have hi2 : i < 2 ^ 22 :=
    lt_of_lt_of_le (List.mem_range.mp hi) (by norm_num [kTrainingNSignal])
  have hj2 : j < 2 ^ 22 :=
    lt_of_lt_of_le (List.mem_range.mp hj) (by norm_num [kTrainingNSignal])
  have h1 := make_event_key_decode_run i 0 0 hi2 (by norm_num) (by norm_num)
  have h2 := make_event_key_decode_run j 0 0 hj2 (by norm_num) (by norm_num)
  rw [← h1, ← h2, hij]

theorem unit_corpus_cand_weights :
    List.map TrainCandidate.weight
        (gather_candidates (fun _ => true) (fun _ _ => 0) unit_corpus) =
      List.replicate (kTrainingNSignal + 1) 1 := by
  rw [unit_corpus_candidates, unit_corpus, List.map_map, List.map_map]
  show List.map (fun _ => (1 : ℚ)) (List.range (kTrainingNSignal + 1)) = _
  rw [List.map_const', List.length_range]

theorem unit_corpus_cand_keys :
    List.map TrainCandidate.key
        (gather_candidates (fun _ => true) (fun _ _ => 0) unit_corpus) =
      List.replicate (kTrainingNSignal + 1) 0 := by
  rw [unit_corpus_candidates, unit_corpus, List.map_map, List.map_map]
  show List.map (fun _ => (0 : ℚ)) (List.range (kTrainingNSignal + 1)) = _
  rw [List.map_const', List.length_range]

theorem unit_corpus_cands_length :
    (gather_candidates (fun _ => true) (fun _ _ => 0) unit_corpus).length
      = kTrainingNSignal + 1 := by
  rw [unit_corpus_candidates, unit_corpus, List.length_map, List.length_map,
    List.length_range]

theorem unit_corpus_total :
    gather_total (fun _ => true) unit_corpus = 50001 := by
  rw [gather_total, unit_corpus_valid, unit_corpus, List.map_map]
  show (List.map (fun _ => (1 : ℚ)) (List.range (kTrainingNSignal + 1))).sum = 50001
  rw [List.map_const', List.length_range, List.sum_replicate, nsmul_eq_mul]
  norm_num [kTrainingNSignal]

theorem unit_corpus_cutoff :
    cutoffOf (gather_candidates (fun _ => true) (fun _ _ => 0) unit_corpus)
      kTrainingNSignal = 0 := by
  rw [cutoffOf, unit_corpus_cand_keys, unit_corpus_cands_length]
  have hsorted : List.Sorted (· ≤ ·) (List.replicate (kTrainingNSignal + 1) (0 : ℚ)) :=
    List.pairwise_replicate.mpr (Or.inr le_rfl)
  rw [List.Sorted.insertionSort_eq hsorted]
  have hlt : kTrainingNSignal + 1 - kTrainingNSignal <
      (List.replicate (kTrainingNSignal + 1) (0 : ℚ)).length := by
    rw [List.length_replicate]
    norm_num [kTrainingNSignal]
  rw [List.getD_eq_getElem _ _ hlt, List.getElem_replicate]

theorem unit_corpus_quota_pos : 0 < kTrainingNSignal := by norm_num [kTrainingNSignal]

theorem unit_corpus_quota_lt :
    kTrainingNSignal < (gather_candidates (fun _ => true) (fun _ _ => 0) unit_corpus).length := by
  rw [unit_corpus_cands_length]
  exact Nat.lt_succ_self _

theorem unit_corpus_selection :
    select_top_perm (gather_candidates (fun _ => true) (fun _ _ => 0) unit_corpus)
        (gather_candidates (fun _ => true) (fun _ _ => 0) unit_corpus) kTrainingNSignal =
      ⟨((top_selection (gather_candidates (fun _ => true) (fun _ _ => 0) unit_corpus)
          (gather_candidates (fun _ => true) (fun _ _ => 0) unit_corpus)
          kTrainingNSignal).map TrainCandidate.event_key).toFinset,
       ((top_selection (gather_candidates (fun _ => true) (fun _ _ => 0) unit_corpus)
          (gather_candidates (fun _ => true) (fun _ _ => 0) unit_corpus)
          kTrainingNSignal).map TrainCandidate.weight).sum⟩ :=
  select_top_perm_eq _ _ _ unit_corpus_keys_nodup (List.Perm.refl _)
    unit_corpus_quota_pos unit_corpus_quota_lt

theorem unit_corpus_top_weights :
    ((top_selection (gather_candidates (fun _ => true) (fun _ _ => 0) unit_corpus)
        (gather_candidates (fun _ => true) (fun _ _ => 0) unit_corpus)
        kTrainingNSignal).map TrainCandidate.weight).sum = 50000 := by
  have hkey0 : ∀ c ∈ gather_candidates (fun _ => true) (fun _ _ => 0) unit_corpus,
      c.key = 0 := by
    intro c hc
    have hm : c.key ∈ List.map TrainCandidate.key
        (gather_candidates (fun _ => true) (fun _ _ => 0) unit_corpus) :=
      List.mem_map_of_mem _ hc
    rw [unit_corpus_cand_keys] at hm
    exact List.eq_of_mem_replicate hm
  rw [top_selection, unit_corpus_cutoff]
  have hFgt : List.filter (fun c => decide ((0 : ℚ) < c.key))
      (gather_candidates (fun _ => true) (fun _ _ => 0) unit_corpus) = [] := by
    apply List.filter_eq_nil_iff.mpr
    intro c hc
    simp [hkey0 c hc]
  have hFeq : List.filter (fun c => decide (c.key = (0 : ℚ)))
      (gather_candidates (fun _ => true) (fun _ _ => 0) unit_corpus) =
      gather_candidates (fun _ => true) (fun _ _ => 0) unit_corpus :=
    List.filter_eq_self.mpr (fun c hc => by simp [hkey0 c hc])
  rw [hFgt, hFeq]
  simp only [List.nil_append, List.length_nil, Nat.sub_zero]
  rw [List.map_take, unit_corpus_cand_weights, List.take_replicate]
  have hmin : kTrainingNSignal ⊓ (kTrainingNSignal + 1) = kTrainingNSignal :=
    inf_eq_left.mpr (Nat.le_succ _)
  rw [hmin, List.sum_replicate, nsmul_eq_mul]
  norm_num [kTrainingNSignal]

theorem TrainSelection_sum_weight_mk (a : Finset Nat) (b : ℚ) :
    (⟨a, b⟩ : TrainSelection).sum_weight = b := rfl

theorem unit_corpus_training_weight :
    (select_top_perm (gather_candidates (fun _ => true) (fun _ _ => 0) unit_corpus)
        (gather_candidates (fun _ => true) (fun _ _ => 0) unit_corpus)
        kTrainingNSignal).sum_weight = 50000 := by
  rw [unit_corpus_selection, TrainSelection_sum_weight_mk]
  exact unit_corpus_top_weights

theorem build_training_sets_signal_scale (uok : Nat → Bool) (skey : Nat → ℚ → ℚ)
    (sig_rows bkg_rows : List ScanRow) :
    (build_training_sets uok skey sig_rows bkg_rows).signal_analysis_scale =
      class_rescale (gather_total uok sig_rows)
        (select_top (gather_candidates uok skey sig_rows) kTrainingNSignal).sum_weight := rfl

theorem build_training_sets_signal_ids (uok : Nat → Bool) (skey : Nat → ℚ → ℚ)
    (sig_rows bkg_rows : List ScanRow) :
    (build_training_sets uok skey sig_rows bkg_rows).training_signal_ids =
      (select_top (gather_candidates uok skey sig_rows) kTrainingNSignal).ids := rfl

theorem unit_corpus_signal_scale :
    (build_training_sets (fun _ => true) (fun _ _ => 0) unit_corpus
      []).signal_analysis_scale = 50001 := by
  rw [build_training_sets_signal_scale, select_top, unit_corpus_total,
    unit_corpus_training_weight, class_rescale]
  norm_num

/-- Claim C1: refuted — the code diverges from the spec's clear intent.
`Hub::Hub` attaches every `w_analysis` column via `sample()` (Hub.cxx lines
244 and 261) before `build_training_sets()` runs (line 271), and the lambda
captures the rescale factors by value (lines 158-159) while they still hold
their defaults `1.0` (Hub.h lines 34-35); only the id sets are captured by
pointer (lines 156-157).  On a signal class of `kTrainingNSignal + 1`
unit-weight events with distinct event keys, the sum of the attached
`w_analysis` over the analysis (non-training) valid events is `1` — the
total minus the training weight — not the pre-partition total `50001` that
the claim asserts. -/
theorem C1_conservation_violated :
    ((unit_corpus.filter (fun r => decide (0 < r.w_nominal) &&
        decide (r.event_key ∉ (build_training_sets (fun _ => true) (fun _ _ => 0)
          unit_corpus []).training_signal_ids))).map
      (fun r => hub_attached_w_analysis r.w_nominal true false)).sum = 1 ∧
    gather_total (fun _ => true) unit_corpus = 50001 ∧
    ((unit_corpus.filter (fun r => decide (0 < r.w_nominal) &&
        decide (r.event_key ∉ (build_training_sets (fun _ => true) (fun _ _ => 0)
          unit_corpus []).training_signal_ids))).map
      (fun r => hub_attached_w_analysis r.w_nominal true false)).sum
      ≠ gather_total (fun _ => true) unit_corpus := by
  have h := analysis_sum_scaled (fun _ => true) (fun _ _ => 0) unit_corpus
    (gather_candidates (fun _ => true) (fun _ _ => 0) unit_corpus) kTrainingNSignal 1
    (fun r hr hw => rfl) unit_corpus_keys_nodup (List.Perm.refl _) one_pos
  rw [unit_corpus_total, unit_corpus_training_weight] at h
  have h2 : ((50001 : ℚ) - 50000) * 1 = 1 := by norm_num
  rw [h2] at h
  rw [← select_top] at h
  rw [← build_training_sets_signal_ids (fun _ => true) (fun _ _ => 0) unit_corpus []] at h
  simp only [hub_attached_w_analysis, hub_captured_signal_scale,
    hub_captured_background_scale]
  refine ⟨h, unit_corpus_total, ?_⟩
  rw [h, unit_corpus_total]
  norm_num

theorem gather_weights_pos (uok : Nat → Bool) (skey : Nat → ℚ → ℚ) (rows : List ScanRow) :
    ∀ c ∈ gather_candidates uok skey rows, 0 < c.weight := by
  intro c hc
  rw [gather_candidates] at hc
  obtain ⟨r, hr, hrc⟩ := List.mem_map.mp hc
  rw [← hrc]
  have hmem := (List.mem_filter.mp hr).2
  simp only [Bool.and_eq_true, decide_eq_true_eq] at hmem
  exact hmem.1

theorem build_training_sets_scales_pos (uok : Nat → Bool) (skey : Nat → ℚ → ℚ)
    (sig_rows bkg_rows : List ScanRow) :
    0 < (build_training_sets uok skey sig_rows bkg_rows).signal_analysis_scale ∧
    0 < (build_training_sets uok skey sig_rows bkg_rows).background_analysis_scale := by
  constructor <;>
    simp only [build_training_sets] <;>
    apply class_rescale_pos <;>
    apply select_top_perm_sum_nonneg <;>
    exact fun c hc => le_of_lt (gather_weights_pos uok skey _ c hc)

/-- Claim C2: refuted — the `w_analysis` lambda that `Hub::sample` attaches
multiplies the nominal weight by the rescale factor captured by value before
`build_training_sets()` ran (Hub.cxx lines 158-159 capture the members while
they still hold their defaults `1.0`; the constructor calls `sample()` at
lines 244 and 261 and `build_training_sets()` only at line 271), not by the
rescale factor of the event's class produced by that catalog's partition
builder: on the `unit_corpus` signal class a non-training event of nominal
weight `1` gets attached `w_analysis = 1`, while the builder's signal
rescale factor is `50001`, so the claimed product `1 × 50001` differs. -/
theorem C2_annotation_stale_scale :
    hub_attached_w_analysis 1 true false = 1 ∧
    (build_training_sets (fun _ => true) (fun _ _ => 0) unit_corpus
        []).signal_analysis_scale = 50001 ∧
    hub_attached_w_analysis 1 true false ≠
      1 * (build_training_sets (fun _ => true) (fun _ _ => 0) unit_corpus
        []).signal_analysis_scale := by
  have h1 : hub_attached_w_analysis 1 true false = 1 := by
    norm_num [hub_attached_w_analysis, hub_captured_signal_scale,
      hub_captured_background_scale, hub_w_analysis, Bool.false_eq_true]
  refine ⟨h1, unit_corpus_signal_scale, ?_⟩
  rw [h1, unit_corpus_signal_scale]
  norm_num

theorem C3_select_top_witness :
    (([⟨1, 5, 2⟩, ⟨2, 5, 1⟩, ⟨3, 5, 1⟩, ⟨4, 1, 1⟩] : List TrainCandidate).map
        TrainCandidate.event_key).Nodup ∧
    (0 : Nat) < 2 ∧
    2 < ([⟨1, 5, 2⟩, ⟨2, 5, 1⟩, ⟨3, 5, 1⟩, ⟨4, 1, 1⟩] : List TrainCandidate).length ∧
    (select_top_perm [⟨1, 5, 2⟩, ⟨2, 5, 1⟩, ⟨3, 5, 1⟩, ⟨4, 1, 1⟩]
      [⟨1, 5, 2⟩, ⟨2, 5, 1⟩, ⟨3, 5, 1⟩, ⟨4, 1, 1⟩] 2).ids.card = 2 :=
  ⟨by decide, by decide, by decide,
    ((C3_select_top [⟨1, 5, 2⟩, ⟨2, 5, 1⟩, ⟨3, 5, 1⟩, ⟨4, 1, 1⟩]
        [⟨1, 5, 2⟩, ⟨2, 5, 1⟩, ⟨3, 5, 1⟩, ⟨4, 1, 1⟩] 2 (by decide)
        (List.Perm.refl _)).1 (by decide) (by decide)).2.1⟩
